import Mathlib

/-!
Shallow embedding of the cfilter repository (cfilter.go, color.go).

The program is a streaming colorizer: it reads a byte stream line by line
with a bounded buffer (processFile), matches every compiled pattern against
each delivered fragment, collects start/end events for every non-empty
colorized capture, sorts them by byte offset, sweeps left to right keeping
per-pattern foreground/background contributions and shared property
counters, and emits ANSI SGR escapes, suppressing an escape identical to
the previously written one.

Modelling conventions:
  * bytes are Lean Char values (the inputs of interest are ASCII);
  * the Go regexp engine is abstracted: a Pattern carries a function
    find : List Char -> Option (List Match) standing for
    RE.FindAllSubmatchIndex; a Match is the list of submatch bounds, none
    standing for the (-1,-1) pair of a non-participating group;
  * Go map iteration order is randomized, so the order used when building
    the property segment of an escape is an explicit parameter
    (propOrd), constrained to be a permutation of the present keys;
  * sort.Sort gives no stability guarantee, so the sorted event list is an
    explicit parameter (sortf), constrained to be an offset-sorted
    permutation of the arrival list; List.insertionSort by offset is the
    canonical admissible instance;
  * fallible code (ParseColorize panics on an unknown keyword) returns
    Except.
-/

namespace CFilter

/-! ### color.go: attribute keys and codes -/

/-- The four property keys of AnsiProperties in color.go. -/
inductive PropKey
  | bold
  | blink
  | underline
  | inverse
deriving DecidableEq, Repr

/-- AnsiProperties: the SGR set code of each property (color.go). -/
def PropKey.code : PropKey → Nat
  | .bold => 1
  | .blink => 5
  | .underline => 4
  | .inverse => 7

/-- All property keys, in a fixed canonical order. -/
def allProps : List PropKey := [.bold, .blink, .underline, .inverse]

/-- color.go Property(name, isset): the on code when set, the off code
(code + revertProp 20, except bold whose off base is 2) when not. -/
def Property (k : PropKey) (isset : Bool) : Nat :=
  if isset then k.code
  else (if k = PropKey.bold then 2 else k.code) + 20

/-- color.go AnsiColors: base foreground codes 30..37. -/
def ansiColor (w : List Char) : Option Nat :=
  if w = "black".toList then some 30
  else if w = "red".toList then some 31
  else if w = "green".toList then some 32
  else if w = "yellow".toList then some 33
  else if w = "blue".toList then some 34
  else if w = "magenta".toList then some 35
  else if w = "cyan".toList then some 36
  else if w = "white".toList then some 37
  else none

/-- Property keyword lookup (AnsiProperties keys). -/
def ansiProp (w : List Char) : Option PropKey :=
  if w = "bold".toList then some PropKey.bold
  else if w = "blink".toList then some PropKey.blink
  else if w = "underline".toList then some PropKey.underline
  else if w = "inverse".toList then some PropKey.inverse
  else none

/-- The Colorize map of color.go: possible keys are foreground,
background and the four properties; a missing key is none. -/
structure Colorize where
  foreground : Option Nat := none
  background : Option Nat := none
  bold : Option Nat := none
  blink : Option Nat := none
  underline : Option Nat := none
  inverse : Option Nat := none
deriving DecidableEq, Repr

def Colorize.empty : Colorize := {}

/-- Property-key lookup in a Colorize map. -/
def Colorize.prop (c : Colorize) : PropKey → Option Nat
  | .bold => c.bold
  | .blink => c.blink
  | .underline => c.underline
  | .inverse => c.inverse

/-- Set a property key to its code (c[word] = v in ParseColorize). -/
def Colorize.setProp (c : Colorize) (k : PropKey) : Colorize :=
  match k with
  | .bold => { c with bold := some (PropKey.code .bold) }
  | .blink => { c with blink := some (PropKey.code .blink) }
  | .underline => { c with underline := some (PropKey.code .underline) }
  | .inverse => { c with inverse := some (PropKey.code .inverse) }

/-- The current channel of ParseColorize (colorType). -/
inductive Chan
  | fg
  | bg
deriving DecidableEq, Repr

/-- Set the current channel key of a Colorize map (c[colorType] = v). -/
def Colorize.setChan (c : Colorize) (ch : Chan) (v : Nat) : Colorize :=
  match ch with
  | .fg => { c with foreground := some v }
  | .bg => { c with background := some v }

/-! ### color.go: ParseColorize

The spec string is split on runs of spaces and tabs exactly as
regexp.MustCompile("[ \\t]+").Split(spec, -1) does, leading and trailing
empty fields included; each word is lowercased and dispatched. -/

def isWS (c : Char) : Bool := c = ' ' || c = '\t'

/-- Prepend a character to the first field of a split result. -/
def consHead (c : Char) : List (List Char) → List (List Char)
  | [] => [[c]]
  | w :: ws => (c :: w) :: ws

/-- Split on maximal runs of spaces and tabs, keeping empty boundary
fields, exactly like Go regexp Split with pattern [ \t]+ and n = -1. -/
def splitWS : List Char → List (List Char)
  | [] => [[]]
  | c :: cs =>
    if isWS c then
      match cs with
      | [] => [[], []]
      | c2 :: _ => if isWS c2 then splitWS cs else [] :: splitWS cs
    else consHead c (splitWS cs)

/-- The running state of ParseColorize: the map built so far, the pending
color addon and the current channel. -/
structure ParseState where
  c : Colorize
  colorAddon : Nat
  colorType : Chan
deriving DecidableEq, Repr

/-- The keyword dispatch of the ParseColorize word loop, on an already
lowercased word.  The unknown-keyword panic is modelled as an error. -/
def colorizeCore (st : ParseState) (w : List Char) :
    Except (List Char) ParseState :=
  if w = "bg".toList ∨ w = "background".toList then
    Except.ok ⟨st.c.setChan Chan.bg 0, 10, Chan.bg⟩
  else if w = "fg".toList ∨ w = "foreground".toList then
    Except.ok ⟨st.c.setChan Chan.fg 0, 0, Chan.fg⟩
  else if w = "bright".toList then
    Except.ok ⟨st.c, st.colorAddon + 60, st.colorType⟩
  else
    match ansiColor w with
    | some v => Except.ok ⟨st.c.setChan st.colorType (st.colorAddon + v),
        st.colorAddon, st.colorType⟩
    | none =>
      match ansiProp w with
      | some k => Except.ok ⟨st.c.setProp k, st.colorAddon, st.colorType⟩
      | none =>
        if w ≠ [] then Except.error ("unknown keyword: ".toList ++ w)
        else Except.ok st

/-- One iteration of the word loop of ParseColorize: the word is
lowercased (strings.ToLower) and dispatched. -/
def colorizeStep (st : ParseState) (w0 : List Char) :
    Except (List Char) ParseState :=
  colorizeCore st (w0.map Char.toLower)

/-- color.go ParseColorize, with the panic modelled as Except.error. -/
def ParseColorize (spec : List Char) : Except (List Char) Colorize :=
  ((splitWS spec).foldlM colorizeStep ⟨Colorize.empty, 0, Chan.fg⟩).map
    (fun st => st.c)

/-! ### Decimal rendering of fmt %d on the natural numbers the code emits -/

/-- Fuel-driven decimal digits; the fuel n + 1 always suffices. -/
def natDecimalAux : Nat → Nat → List Char
  | 0, _ => []
  | f + 1, n =>
    if n < 10 then [Nat.digitChar n]
    else natDecimalAux f (n / 10) ++ [Nat.digitChar (n % 10)]

/-- Decimal representation of a natural number (fmt %d). -/
def natDecimal (n : Nat) : List Char := natDecimalAux (n + 1) n

/-! ### cfilter.go: patterns, matches and line events -/

/-- One match of FindAllSubmatchIndex: the submatch bounds by group index,
none standing for the (-1, -1) pair of a non-participating group. -/
abbrev GoMatch : Type := List (Option (Nat × Nat))

/-- A colorized named capture group of a pattern. -/
structure Group where
  name : List Char
  number : Nat
  colorize : Colorize

/-- A compiled pattern: the regexp is abstracted as its
FindAllSubmatchIndex behaviour, which returns none when the line does not
match at all. -/
structure Pattern where
  find : List Char → Option (List GoMatch)
  groups : List Group

/-- LinePositionKind. -/
inductive LPKind
  | startKind
  | endKind
deriving DecidableEq, Repr

/-- A start or end event of one capture span: kind, pattern index (Order),
byte offset, and the colorize map of the group. -/
structure LinePosition where
  kind : LPKind
  order : Nat
  offset : Nat
  colorize : Colorize
deriving DecidableEq, Repr

/-- The bounds of group number g inside one match (match[2g], match[2g+1]). -/
def getCapture (m : GoMatch) (g : Nat) : Option (Nat × Nat) :=
  List.getD m g none

/-- The events one capture contributes: nothing when the bounds are the
(-1,-1) pair of a non-participating group or when start equals end,
otherwise a start event and an end event (cfilter.go lines 622-642). -/
def captureEvents (n : Nat) (c : Colorize) :
    Option (Nat × Nat) → List LinePosition
  | none => []
  | some (s, e) =>
    if s = e then []
    else [⟨LPKind.startKind, n, s, c⟩, ⟨LPKind.endKind, n, e, c⟩]

/-- The events one colorized group contributes across all matches of its
pattern, in match order. -/
def groupEvents (n : Nat) (g : Group) (res : List GoMatch) :
    List LinePosition :=
  res.flatMap (fun m => captureEvents n g.colorize (getCapture m g.number))

/-- The events one pattern contributes to a line, with its matched flag. -/
def patternEvents (n : Nat) (p : Pattern) (line : List Char) :
    Bool × List LinePosition :=
  match p.find line with
  | none => (false, [])
  | some res => (true, p.groups.flatMap (fun g => groupEvents n g res))

/-- The pattern loop of cfilter.go lines 616-643, walking the pattern
list with its running index n: the lineMatches flag is the disjunction of
the matched flags and the events are concatenated in pattern order. -/
def collectGo (line : List Char) : Nat → List Pattern →
    Bool × List LinePosition
  | _, [] => (false, [])
  | n, p :: ps =>
    let pe := patternEvents n p line
    let rest := collectGo line (n + 1) ps
    (pe.1 || rest.1, pe.2 ++ rest.2)

/-- Collect the arrival-ordered event list of a line together with the
lineMatches flag (cfilter.go lines 611-643). -/
def collectLine (pats : List Pattern) (line : List Char) :
    Bool × List LinePosition :=
  collectGo line 0 pats

/-! ### The sort applied to the event list

sort.Sort orders by LinePositions.Less, which compares offsets only, and
makes no stability guarantee; an admissible result is any offset-sorted
permutation of the arrival list.  Mathlib insertionSort by offset is the
canonical admissible instance. -/

/-- The order induced by LinePositions.Less: nondecreasing offsets. -/
def offLE (a b : LinePosition) : Prop := a.offset ≤ b.offset

instance : DecidableRel offLE := fun a b => Nat.decLe a.offset b.offset

instance : IsTotal LinePosition offLE :=
  ⟨fun a b => Nat.le_total a.offset b.offset⟩

instance : IsTrans LinePosition offLE :=
  ⟨fun _ _ _ h1 h2 => Nat.le_trans h1 h2⟩

/-- post is an admissible result of sort.Sort applied to pre: a
permutation of pre whose offsets are nondecreasing. -/
def SortResultOK (pre post : List LinePosition) : Prop :=
  post.Perm pre ∧ post.Sorted offLE

/-- An admissible family of sort results, one per processed line. -/
def SortfOK (sortf : Nat → List LinePosition → List LinePosition) : Prop :=
  ∀ i l, SortResultOK l (sortf i l)

/-- The canonical admissible sort: insertion sort by offset. -/
def sortPositions (l : List LinePosition) : List LinePosition :=
  List.insertionSort offLE l

/-- The canonical sort family. -/
def sortCanon : Nat → List LinePosition → List LinePosition :=
  fun _ l => sortPositions l

/-! ### The sweep state -/

/-- The running property counters (the lineProperties Go map): a key is
present once it has been incremented or decremented, and stays present
with its count even when the count returns to zero; the map is allocated
once per stream and survives across lines. -/
structure PropMap where
  bold : Option Int := none
  blink : Option Int := none
  underline : Option Int := none
  inverse : Option Int := none
deriving DecidableEq, Repr

def PropMap.empty : PropMap := {}

def PropMap.get (m : PropMap) : PropKey → Option Int
  | .bold => m.bold
  | .blink => m.blink
  | .underline => m.underline
  | .inverse => m.inverse

def PropMap.set (m : PropMap) (k : PropKey) (v : Int) : PropMap :=
  match k with
  | .bold => { m with bold := some v }
  | .blink => { m with blink := some v }
  | .underline => { m with underline := some v }
  | .inverse => { m with inverse := some v }

/-- lineProperties[k]++ (inserting the key when absent, as in Go). -/
def PropMap.inc (m : PropMap) (k : PropKey) : PropMap :=
  m.set k ((m.get k).getD 0 + 1)

/-- lineProperties[k]-- (inserting the key when absent, as in Go). -/
def PropMap.dec (m : PropMap) (k : PropKey) : PropMap :=
  m.set k ((m.get k).getD 0 - 1)

/-- The keys present in the map, in the canonical key order; the Go map
iterates them in a randomized order, modelled as any permutation of this
list. -/
def PropMap.presentKeys (m : PropMap) : List PropKey :=
  allProps.filter (fun k => (m.get k).isSome)

/-- An admissible family of map iteration orders, one per escape build. -/
def PropOrdOK (propOrd : Nat → PropMap → List PropKey) : Prop :=
  ∀ i m, (propOrd i m).Perm m.presentKeys

/-- The canonical iteration order. -/
def ordCanon : Nat → PropMap → List PropKey := fun _ m => m.presentKeys

/-- The per-stream render state: the per-pattern foreground and background
contribution arrays and the property counters (cfilter.go lines 596-598,
allocated once per stream). -/
structure RenderState where
  colorFG : List Nat
  colorBG : List Nat
  props : PropMap
deriving DecidableEq, Repr

/-- Increment the counters of every property key the colorize map sets
(the range over AnsiProperties on a start event). -/
def incProps (c : Colorize) (m : PropMap) : PropMap :=
  allProps.foldl (fun m k => if (c.prop k).isSome then m.inc k else m) m

/-- Decrement the counters of every property key the colorize map sets
(the range over AnsiProperties on an end event). -/
def decProps (c : Colorize) (m : PropMap) : PropMap :=
  allProps.foldl (fun m k => if (c.prop k).isSome then m.dec k else m) m

/-- Apply one start or end event to the render state (cfilter.go lines
657-674): a start records the colorize contributions of the pattern, an
end clears them; property counters move by one in each direction. -/
def applyEvent (st : RenderState) (pos : LinePosition) : RenderState :=
  match pos.kind with
  | .startKind =>
    { colorFG := st.colorFG.set pos.order (pos.colorize.foreground.getD 0)
      colorBG := st.colorBG.set pos.order (pos.colorize.background.getD 0)
      props := incProps pos.colorize st.props }
  | .endKind =>
    { colorFG := st.colorFG.set pos.order 0
      colorBG := st.colorBG.set pos.order 0
      props := decProps pos.colorize st.props }

/-- The countdown loop of cfilter.go lines 678-685: n runs from the top
pattern index downward while either channel is still zero, taking the
first positive contribution of each channel independently. -/
def findLoop (fg bg : List Nat) : Nat → Nat × Nat → Nat × Nat
  | 0, acc => acc
  | n + 1, (fFG, fBG) =>
    if fFG = 0 ∨ fBG = 0 then
      let fFG2 := if fFG = 0 ∧ 0 < fg.getD n 0 then fg.getD n 0 else fFG
      let fBG2 := if fBG = 0 ∧ 0 < bg.getD n 0 then bg.getD n 0 else fBG
      findLoop fg bg n (fFG2, fBG2)
    else (fFG, fBG)

/-- The resolved foreground and background of the current state, with the
defaults ResetForeground = 39 and ResetBackground = 49 (lines 676-691). -/
def resolveColors (fg bg : List Nat) : Nat × Nat :=
  let r := findLoop fg bg fg.length (0, 0)
  (if r.1 = 0 then 39 else r.1, if r.2 = 0 then 49 else r.2)

/-- The property segment of an escape: one "code;" per present key, in
the given iteration order, on codes for positive counters and off codes
otherwise (cfilter.go lines 692-695). -/
def propsString (ord : List PropKey) (m : PropMap) : List Char :=
  ord.flatMap (fun k =>
    natDecimal (Property k (decide (0 < (m.get k).getD 0))) ++ [';'])

/-- ESC [ . -/
def AnsiStart : List Char := ['\x1b', '[']

/-- The escape string built after an event (cfilter.go line 697). -/
def buildEscape (ord : List PropKey) (st : RenderState) : List Char :=
  let r := resolveColors st.colorFG st.colorBG
  AnsiStart ++ propsString ord st.props ++ natDecimal r.1 ++ [';'] ++
    natDecimal r.2 ++ ['m']

/-! ### The sweep over the sorted events of one line -/

/-- One wr.Write call: either verbatim input bytes or an escape string. -/
inductive Chunk
  | text (bytes : List Char)
  | escape (bytes : List Char)
deriving DecidableEq, Repr

def Chunk.bytes : Chunk → List Char
  | .text b => b
  | .escape b => b

/-- The byte stream of a chunk sequence. -/
def outBytes (chunks : List Chunk) : List Char :=
  (chunks.map Chunk.bytes).flatten

/-- The escape strings of a chunk sequence, in order. -/
def escapesOf (chunks : List Chunk) : List (List Char) :=
  chunks.filterMap (fun c =>
    match c with
    | .escape e => some e
    | .text _ => none)

/-- The verbatim text of a chunk sequence, escapes removed. -/
def textOf (chunks : List Chunk) : List Char :=
  ((chunks.filterMap (fun c =>
    match c with
    | .text b => some b
    | .escape _ => none))).flatten

/-- Go line[a:b] for a line of bytes. -/
def slice (l : List Char) (a b : Nat) : List Char := (l.take b).drop a

/-- The sweep accumulator: render state, cursor, the previous escape of
this line, the global escape-build counter, and the chunks written. -/
structure SweepAcc where
  st : RenderState
  lineOffset : Nat
  prevEscape : List Char
  evIdx : Nat
  out : List Chunk

/-- Flush the verbatim input bytes from the cursor up to the event offset
(cfilter.go lines 652-655). -/
def flushTo (line : List Char) (acc : SweepAcc) (off : Nat) : SweepAcc :=
  if acc.lineOffset < off then
    { acc with
      out := acc.out ++ [Chunk.text (slice line acc.lineOffset off)]
      lineOffset := off }
  else acc

/-- Write the escape unless it repeats the previously written one
(cfilter.go lines 699-702). -/
def emitEscape (acc : SweepAcc) (esc : List Char) : SweepAcc :=
  if acc.prevEscape ≠ esc then
    { acc with out := acc.out ++ [Chunk.escape esc], prevEscape := esc }
  else acc

/-- One iteration of the sweep loop (cfilter.go lines 651-704): flush the
verbatim bytes up to the event offset, and when the cursor reaches the
event, apply it, build the escape and write it unless it repeats the
previous one. -/
def sweepStep (propOrd : Nat → PropMap → List PropKey) (line : List Char)
    (acc : SweepAcc) (pos : LinePosition) : SweepAcc :=
  let acc := flushTo line acc pos.offset
  if acc.lineOffset = pos.offset then
    let st := applyEvent acc.st pos
    let esc := buildEscape (propOrd acc.evIdx st.props) st
    emitEscape { acc with st := st, evIdx := acc.evIdx + 1 } esc
  else acc

/-- Render one delivered line (cfilter.go lines 611-708): collect events;
with events, sort them and sweep, then flush the tail; with no events,
write the line verbatim when some pattern matched and nothing otherwise.
Returns the chunks written, the updated render state, and the updated
escape-build counter. -/
def renderLine (pats : List Pattern)
    (sortf : Nat → List LinePosition → List LinePosition)
    (propOrd : Nat → PropMap → List PropKey)
    (lineIdx evIdx : Nat) (st : RenderState) (line : List Char) :
    List Chunk × RenderState × Nat :=
  let col := collectLine pats line
  if col.2 ≠ [] then
    let positions := sortf lineIdx col.2
    let acc := positions.foldl (sweepStep propOrd line)
      ⟨st, 0, [], evIdx, []⟩
    (acc.out ++ [Chunk.text (slice line acc.lineOffset line.length)],
      acc.st, acc.evIdx)
  else if col.1 then ([Chunk.text line], st, evIdx)
  else ([], st, evIdx)

/-! ### The stream driver: bufio ReadSlice with a bounded buffer

processFile reads with reader.ReadSlice('\n') on a buffer of
max(bufsize, 16) bytes (bufio.NewReaderSize enforces the minimum 16) and
treats bufio.ErrBufferFull as no error, so a full buffer without a
newline is delivered to the render step as if it were a line. -/

/-- One ReadSlice call with the given remaining buffer capacity: returns
the delivered fragment, the remaining input, and whether io.EOF was
reported.  Fuel 0 is the full buffer without a delimiter
(bufio.ErrBufferFull, treated as no error by processFile). -/
def takeLine : Nat → List Char → List Char × List Char × Bool
  | 0, rest => ([], rest, false)
  | _ + 1, [] => ([], [], true)
  | n + 1, c :: cs =>
    if c = '\n' then ([c], cs, false)
    else
      let r := takeLine n cs
      (c :: r.1, r.2.1, r.2.2)

/-- The fragments the read loop delivers to the render step, driven by
fuel; the fuel input.length + 1 always suffices. -/
def deliveredFuel (eB : Nat) : Nat → List Char → List (List Char)
  | 0, _ => []
  | f + 1, input =>
    let r := takeLine (max eB 16) input
    if r.2.2 then [r.1]
    else r.1 :: deliveredFuel eB f r.2.1

/-- The sequence of fragments processFile hands to the render step for a
whole input stream, with buffer size B (effective max B 16). -/
def deliveredLines (B : Nat) (input : List Char) : List (List Char) :=
  deliveredFuel B (input.length + 1) input

/-- The per-stream loop accumulator. -/
structure StreamAcc where
  st : RenderState
  lineIdx : Nat
  evIdx : Nat
  out : List Chunk

/-- Initial render state of a stream: zeroed contribution arrays of the
pattern count and an empty property map. -/
def initState (pats : List Pattern) : RenderState :=
  ⟨List.replicate pats.length 0, List.replicate pats.length 0,
    PropMap.empty⟩

/-- Process one delivered fragment, threading the state. -/
def streamStep (pats : List Pattern)
    (sortf : Nat → List LinePosition → List LinePosition)
    (propOrd : Nat → PropMap → List PropKey)
    (acc : StreamAcc) (line : List Char) : StreamAcc :=
  let r := renderLine pats sortf propOrd acc.lineIdx acc.evIdx acc.st line
  ⟨r.2.1, acc.lineIdx + 1, r.2.2, acc.out ++ r.1⟩

/-- cfilter.go processFile at the chunk level: every wr.Write call of a
run, in order.  sortf and propOrd resolve the two sources of library
nondeterminism (sort.Sort tie order, Go map iteration order). -/
def processChunks (pats : List Pattern) (B : Nat)
    (sortf : Nat → List LinePosition → List LinePosition)
    (propOrd : Nat → PropMap → List PropKey)
    (input : List Char) : List Chunk :=
  ((deliveredLines B input).foldl (streamStep pats sortf propOrd)
    ⟨initState pats, 0, 0, []⟩).out

/-- cfilter.go processFile: the bytes written to the sink. -/
def processFile (pats : List Pattern) (B : Nat)
    (sortf : Nat → List LinePosition → List LinePosition)
    (propOrd : Nat → PropMap → List PropKey)
    (input : List Char) : List Char :=
  outBytes (processChunks pats B sortf propOrd input)

/-! ### Spec-side channel resolution

specScan follows the words of the spec: scan pattern indices from highest
to lowest and take the first non-empty (positive) contribution; the
resolved channel falls back to its default code when no contribution is
found.  It is compared below with the countdown loop embedded from the
code (findLoop, resolveColors). -/

/-- The contribution of the highest index below n whose entry is
positive, or 0 when none is. -/
def specScan (arr : List Nat) : Nat → Nat
  | 0 => 0
  | n + 1 => if 0 < arr.getD n 0 then arr.getD n 0 else specScan arr n

/-- The effective channel value per the spec: the contribution of the
highest-index pattern with a non-empty contribution, else the default. -/
def specEffective (arr : List Nat) (dflt : Nat) : Nat :=
  if specScan arr arr.length = 0 then dflt else specScan arr arr.length

theorem findLoop_spec (fg bg : List Nat) :
    ∀ (n a b : Nat),
      findLoop fg bg n (a, b) =
        (if a = 0 then specScan fg n else a,
         if b = 0 then specScan bg n else b) := by
  intro n
  induction n with
  | zero =>
    intro a b
    by_cases ha : a = 0 <;> by_cases hb : b = 0 <;>
      simp [findLoop, specScan, ha, hb]
  | succ n ih =>
    intro a b
    simp only [findLoop]
    by_cases hcond : a = 0 ∨ b = 0
    · rw [if_pos hcond, ih]
      simp only [specScan, Prod.mk.injEq]
      constructor <;> · split_ifs <;> omega
    · push_neg at hcond
      rw [if_neg (by simp [hcond.1, hcond.2])]
      simp [hcond.1, hcond.2]

theorem resolveColors_spec (fg bg : List Nat) (h : fg.length = bg.length) :
    resolveColors fg bg = (specEffective fg 39, specEffective bg 49) := by
  unfold resolveColors specEffective
  rw [findLoop_spec, h]
  simp

theorem applyEvent_lengths (st : RenderState) (pos : LinePosition) :
    (applyEvent st pos).colorFG.length = st.colorFG.length ∧
    (applyEvent st pos).colorBG.length = st.colorBG.length := by
  cases pos with
  | mk kind o off c => cases kind <;> simp [applyEvent]

/-- Claim C1: after a start or end event is applied during the sweep, the
effective foreground and background are each the contribution of the
highest-index (last-declared) pattern whose contribution for that channel
is currently non-empty, the two channels resolved independently; with two
patterns A (index 0, declared first) and B (index 1, declared second)
both contributing a foreground, the resolved foreground is the
contribution of B; a channel with no active contribution resolves to 39
(foreground) or 49 (background). -/
theorem c1_priority_resolution :
    (∀ (st : RenderState) (pos : LinePosition),
      st.colorFG.length = st.colorBG.length →
      resolveColors (applyEvent st pos).colorFG (applyEvent st pos).colorBG
        = (specEffective (applyEvent st pos).colorFG 39,
           specEffective (applyEvent st pos).colorBG 49))
    ∧ (∀ (a b : Nat) (bgs : List Nat), 0 < a → 0 < b → bgs.length = 2 →
        (resolveColors [a, b] bgs).1 = b) := by
  constructor
  · intro st pos h
    exact resolveColors_spec _ _
      (((applyEvent_lengths st pos).1.trans h).trans
        (applyEvent_lengths st pos).2.symm)
  · intro a b bgs ha hb hlen
    rw [resolveColors_spec [a, b] bgs (by simpa using hlen.symm)]
    simp only [specEffective, specScan]
    simp [hb, Nat.pos_iff_ne_zero.mp hb]

/-- Witness for c1_priority_resolution at a concrete state and event. -/
theorem c1_priority_witness :
    (resolveColors
        (applyEvent ⟨[0, 0], [0, 0], PropMap.empty⟩
          ⟨LPKind.startKind, 1, 0,
            ⟨some 31, some 41, none, none, none, none⟩⟩).colorFG
        (applyEvent ⟨[0, 0], [0, 0], PropMap.empty⟩
          ⟨LPKind.startKind, 1, 0,
            ⟨some 31, some 41, none, none, none, none⟩⟩).colorBG
      = (specEffective
          (applyEvent ⟨[0, 0], [0, 0], PropMap.empty⟩
            ⟨LPKind.startKind, 1, 0,
              ⟨some 31, some 41, none, none, none, none⟩⟩).colorFG 39,
         specEffective
          (applyEvent ⟨[0, 0], [0, 0], PropMap.empty⟩
            ⟨LPKind.startKind, 1, 0,
              ⟨some 31, some 41, none, none, none, none⟩⟩).colorBG 49))
    ∧ (resolveColors [31, 32] [0, 0]).1 = 32 :=
  ⟨c1_priority_resolution.1 _ _ rfl,
   c1_priority_resolution.2 31 32 [0, 0] (by decide) (by decide) rfl⟩

/-- Claim C9: a capture whose start offset equals its end offset (and
likewise a non-participating capture) produces no span: it contributes no
start or end event, and deleting such a capture from the match list of a
colorized group leaves the event list of the line unchanged. -/
theorem c9_zero_width_capture (n : Nat) (g : Group)
    (pre post : List GoMatch) (m : GoMatch) (s : Nat)
    (h : getCapture m g.number = some (s, s)) :
    captureEvents n g.colorize (getCapture m g.number) = []
    ∧ captureEvents n g.colorize none = []
    ∧ groupEvents n g (pre ++ m :: post) = groupEvents n g (pre ++ post) := by
  refine ⟨by simp [h, captureEvents], rfl, ?_⟩
  simp [groupEvents, List.flatMap_append, h, captureEvents]

/-- Witness for c9_zero_width_capture on a concrete degenerate capture. -/
theorem c9_zero_width_witness :
    captureEvents 0 Colorize.empty
        (getCapture [some (0, 5), some (2, 2)] 1) = []
    ∧ captureEvents 0 Colorize.empty none = []
    ∧ groupEvents 0 ⟨['x'], 1, Colorize.empty⟩
        ([[some (0, 5), some (0, 2)]] ++ [some (0, 5), some (2, 2)] ::
          [[some (0, 5), some (3, 4)]])
      = groupEvents 0 ⟨['x'], 1, Colorize.empty⟩
        ([[some (0, 5), some (0, 2)]] ++ [[some (0, 5), some (3, 4)]]) :=
  c9_zero_width_capture 0 ⟨['x'], 1, Colorize.empty⟩
    [[some (0, 5), some (0, 2)]] [[some (0, 5), some (3, 4)]]
    [some (0, 5), some (2, 2)] 2 rfl

/-! ### Attribute resolution failure (claim C7) -/

/-- A lowercased word the attribute grammar recognizes: a channel
keyword, bright, a color name, or a property name. -/
def Recognized (w : List Char) : Prop :=
  w = "bg".toList ∨ w = "background".toList ∨ w = "fg".toList ∨
    w = "foreground".toList ∨ w = "bright".toList ∨
    (ansiColor w).isSome ∨ (ansiProp w).isSome

instance (w : List Char) : Decidable (Recognized w) := by
  unfold Recognized
  exact inferInstance

theorem colorizeCore_err (st : ParseState) (w : List Char)
    (hne : w ≠ []) (hnr : ¬ Recognized w) :
    colorizeCore st w =
      Except.error ("unknown keyword: ".toList ++ w) := by
  unfold Recognized at hnr
  push_neg at hnr
  obtain ⟨h1, h2, h3, h4, h5, h6, h7⟩ := hnr
  have h6n : ansiColor w = none := by
    cases hc : ansiColor w
    · rfl
    · exact absurd (by rw [hc]; rfl) h6
  have h7n : ansiProp w = none := by
    cases hc : ansiProp w
    · rfl
    · exact absurd (by rw [hc]; rfl) h7
  unfold colorizeCore
  rw [if_neg (by tauto), if_neg (by tauto), if_neg h5, h6n, h7n,
    if_pos hne]

theorem colorizeCore_ok (st : ParseState) (w : List Char)
    (h : w = [] ∨ Recognized w) :
    ∃ st2, colorizeCore st w = Except.ok st2 := by
  unfold colorizeCore
  rcases h with h | h
  · subst h
    exact ⟨st, by rfl⟩
  · unfold Recognized at h
    rcases h with h | h | h | h | h | h | h
    · exact ⟨_, by rw [if_pos (Or.inl h)]⟩
    · exact ⟨_, by rw [if_pos (Or.inr h)]⟩
    · subst h
      exact ⟨_, by rfl⟩
    · subst h
      exact ⟨_, by rfl⟩
    · subst h
      exact ⟨_, by rfl⟩
    · rw [Option.isSome_iff_exists] at h
      obtain ⟨v, hv⟩ := h
      have hc : ∀ s, ansiColor w = some s → ¬ (w = "bg".toList ∨
          w = "background".toList) ∧ ¬ (w = "fg".toList ∨
          w = "foreground".toList) ∧ w ≠ "bright".toList := by
        intro s hs
        refine ⟨?_, ?_, ?_⟩ <;>
          · rintro (rfl | rfl) <;> simp [ansiColor] at hs
      obtain ⟨k1, k2, k3⟩ := hc v hv
      rw [if_neg k1, if_neg k2, if_neg k3, hv]
      exact ⟨_, rfl⟩
    · rw [Option.isSome_iff_exists] at h
      obtain ⟨v, hv⟩ := h
      have hc : ∀ s, ansiProp w = some s → ¬ (w = "bg".toList ∨
          w = "background".toList) ∧ ¬ (w = "fg".toList ∨
          w = "foreground".toList) ∧ w ≠ "bright".toList ∧
          ansiColor w = none := by
        intro s hs
        refine ⟨?_, ?_, ?_, ?_⟩
        · rintro (rfl | rfl) <;> simp [ansiProp] at hs
        · rintro (rfl | rfl) <;> simp [ansiProp] at hs
        · rintro rfl; simp [ansiProp] at hs
        · unfold ansiProp at hs
          unfold ansiColor
          split_ifs at hs ⊢ <;> first | rfl | (subst_vars; simp_all)
      obtain ⟨k1, k2, k3, k4⟩ := hc v hv
      rw [if_neg k1, if_neg k2, if_neg k3, k4, hv]
      exact ⟨_, rfl⟩

theorem colorize_fold_error :
    ∀ (ws : List (List Char)) (st : ParseState),
      (∃ w ∈ ws, w.map Char.toLower ≠ [] ∧
        ¬ Recognized (w.map Char.toLower)) →
      ∃ msg, ws.foldlM colorizeStep st = Except.error msg := by
  intro ws
  induction ws with
  | nil => intro st h; simp at h
  | cons w ws ih =>
    intro st h
    rw [List.foldlM_cons]
    by_cases hbad : w.map Char.toLower ≠ [] ∧
        ¬ Recognized (w.map Char.toLower)
    · refine ⟨"unknown keyword: ".toList ++ w.map Char.toLower, ?_⟩
      rw [show colorizeStep st w = Except.error
          ("unknown keyword: ".toList ++ w.map Char.toLower) from
        colorizeCore_err st _ hbad.1 hbad.2]
      rfl
    · have hok : w.map Char.toLower = [] ∨
          Recognized (w.map Char.toLower) := by
        by_cases he : w.map Char.toLower = []
        · exact Or.inl he
        · exact Or.inr (not_not.mp (fun hr => hbad ⟨he, hr⟩))
      obtain ⟨st2, hst2⟩ := colorizeCore_ok st _ hok
      rw [show colorizeStep st w = Except.ok st2 from hst2]
      obtain ⟨w0, hw0, hbad0⟩ := h
      rcases List.mem_cons.mp hw0 with rfl | hmem
      · exact absurd hbad0 hbad
      · obtain ⟨msg, hmsg⟩ := ih st2 ⟨w0, hmem, hbad0⟩
        exact ⟨msg, by rw [show (Except.ok st2 >>= fun s =>
          ws.foldlM colorizeStep s) = ws.foldlM colorizeStep st2 from rfl,
          hmsg]⟩

/-- Claim C7: a colorization specification containing at least one
(nonempty) token that is not a recognized channel keyword, color name,
property name, or bright makes attribute resolution fail with a reported
error; it never returns a partially resolved set with the token silently
ignored. -/
theorem c7_unknown_token_error (spec : List Char)
    (h : ∃ w ∈ splitWS spec, w.map Char.toLower ≠ [] ∧
      ¬ Recognized (w.map Char.toLower)) :
    ∃ msg, ParseColorize spec = Except.error msg := by
  obtain ⟨msg, hmsg⟩ :=
    colorize_fold_error (splitWS spec) ⟨Colorize.empty, 0, Chan.fg⟩ h
  exact ⟨msg, by unfold ParseColorize; rw [hmsg]; rfl⟩

/-- Witness for c7_unknown_token_error on the spec string fg zzz. -/
theorem c7_unknown_token_witness :
    ∃ msg, ParseColorize "fg zzz".toList = Except.error msg :=
  c7_unknown_token_error ("fg zzz".toList)
    ⟨"zzz".toList, by decide, by decide, by decide⟩

/-! ### Values a successful attribute resolution can produce (claim C8) -/

/-- A value the foreground key can hold after a successful resolution: 0
(left by a bare channel keyword) or a base code 30..37 plus 60 for each
accumulated bright. -/
def FgValueOK (v : Nat) : Prop :=
  v = 0 ∨ ∃ b k, 30 ≤ b ∧ b ≤ 37 ∧ v = b + 60 * k

/-- Likewise for the background key, the bases offset by +10. -/
def BgValueOK (v : Nat) : Prop :=
  v = 0 ∨ ∃ b k, 40 ≤ b ∧ b ≤ 47 ∧ v = b + 60 * k

/-- The value invariant of a resolved Colorize map. -/
def ColorizeValuesOK (c : Colorize) : Prop :=
  (∀ v, c.foreground = some v → FgValueOK v) ∧
    (∀ v, c.background = some v → BgValueOK v) ∧
    (∀ v, c.bold = some v → v = 1) ∧
    (∀ v, c.blink = some v → v = 5) ∧
    (∀ v, c.underline = some v → v = 4) ∧
    (∀ v, c.inverse = some v → v = 7)

/-- The invariant of the running parse state: the pending addon is the
offset of the current channel plus 60 per accumulated bright. -/
def ParseStateOK (st : ParseState) : Prop :=
  ColorizeValuesOK st.c ∧
    ∃ k, st.colorAddon =
      (match st.colorType with | Chan.fg => 0 | Chan.bg => 10) + 60 * k

theorem ansiColor_range (w : List Char) (v : Nat)
    (h : ansiColor w = some v) : 30 ≤ v ∧ v ≤ 37 := by
  unfold ansiColor at h
  split_ifs at h <;> (cases h; omega)

theorem valuesOK_setChan_fg (c : Colorize) (v : Nat) (hv : FgValueOK v)
    (h : ColorizeValuesOK c) : ColorizeValuesOK (c.setChan Chan.fg v) := by
  obtain ⟨_, cb, c1, c5, c4, c7⟩ := h
  exact ⟨fun v2 hv2 => by cases hv2; exact hv, cb, c1, c5, c4, c7⟩

theorem valuesOK_setChan_bg (c : Colorize) (v : Nat) (hv : BgValueOK v)
    (h : ColorizeValuesOK c) : ColorizeValuesOK (c.setChan Chan.bg v) := by
  obtain ⟨cf, _, c1, c5, c4, c7⟩ := h
  exact ⟨cf, fun v2 hv2 => by cases hv2; exact hv, c1, c5, c4, c7⟩

theorem valuesOK_setProp (c : Colorize) (k : PropKey)
    (h : ColorizeValuesOK c) : ColorizeValuesOK (c.setProp k) := by
  obtain ⟨cf, cb, c1, c5, c4, c7⟩ := h
  cases k <;>
    exact ⟨cf, cb, by intro v hv; first | (cases hv; rfl) | exact c1 v hv,
      by intro v hv; first | (cases hv; rfl) | exact c5 v hv,
      by intro v hv; first | (cases hv; rfl) | exact c4 v hv,
      by intro v hv; first | (cases hv; rfl) | exact c7 v hv⟩

theorem colorValue_preserves (st : ParseState) (v : Nat)
    (hc : ColorizeValuesOK st.c) (k0 : Nat)
    (hk0 : st.colorAddon =
      (match st.colorType with | Chan.fg => 0 | Chan.bg => 10) + 60 * k0)
    (hvl : 30 ≤ v) (hvr : v ≤ 37) :
    ParseStateOK ⟨st.c.setChan st.colorType (st.colorAddon + v),
      st.colorAddon, st.colorType⟩ := by
  unfold ParseStateOK
  cases hct : st.colorType with
  | fg =>
    rw [hct] at hk0
    change st.colorAddon = 0 + 60 * k0 at hk0
    refine ⟨valuesOK_setChan_fg st.c _
      (Or.inr ⟨v, k0, hvl, hvr, by omega⟩) hc, k0, ?_⟩
    change st.colorAddon = 0 + 60 * k0
    exact hk0
  | bg =>
    rw [hct] at hk0
    change st.colorAddon = 10 + 60 * k0 at hk0
    refine ⟨valuesOK_setChan_bg st.c _
      (Or.inr ⟨v + 10, k0, by omega, by omega, by omega⟩) hc, k0, ?_⟩
    change st.colorAddon = 10 + 60 * k0
    exact hk0

theorem colorizeCore_preserves (st st2 : ParseState) (w : List Char)
    (hok : ParseStateOK st) (h : colorizeCore st w = Except.ok st2) :
    ParseStateOK st2 := by
  obtain ⟨hc, k0, hk0⟩ := hok
  unfold colorizeCore at h
  split_ifs at h with h1 h2 h3 h4
  · cases h
    exact ⟨valuesOK_setChan_bg st.c 0 (Or.inl rfl) hc, 0, rfl⟩
  · cases h
    exact ⟨valuesOK_setChan_fg st.c 0 (Or.inl rfl) hc, 0, rfl⟩
  · cases h
    refine ⟨hc, k0 + 1, ?_⟩
    rw [hk0]
    ring
  · revert h
    cases hcol : ansiColor w with
    | some v =>
      intro h
      cases h
      obtain ⟨hvl, hvr⟩ := ansiColor_range w v hcol
      exact colorValue_preserves st v hc k0 hk0 hvl hvr
    | none =>
      cases hprop : ansiProp w with
      | some k =>
        intro h
        cases h
        exact ⟨valuesOK_setProp st.c k hc, k0, hk0⟩
      | none =>
        intro h
        cases h
  · revert h
    cases hcol : ansiColor w with
    | some v =>
      intro h
      cases h
      obtain ⟨hvl, hvr⟩ := ansiColor_range w v hcol
      exact colorValue_preserves st v hc k0 hk0 hvl hvr
    | none =>
      cases hprop : ansiProp w with
      | some k =>
        intro h
        cases h
        exact ⟨valuesOK_setProp st.c k hc, k0, hk0⟩
      | none =>
        intro h
        cases h
        exact ⟨hc, k0, hk0⟩

theorem colorize_fold_preserves :
    ∀ (ws : List (List Char)) (st st2 : ParseState),
      ParseStateOK st → ws.foldlM colorizeStep st = Except.ok st2 →
      ParseStateOK st2 := by
  intro ws
  induction ws with
  | nil =>
    intro st st2 hok h
    cases h
    exact hok
  | cons w ws ih =>
    intro st st2 hok h
    rw [List.foldlM_cons] at h
    cases hstep : colorizeStep st w with
    | error e =>
      rw [hstep] at h
      cases h
    | ok st1 =>
      rw [hstep] at h
      exact ih st1 st2 (colorizeCore_preserves st st1 _ hok hstep) h

/-- Counterexample to claim C8 as stated: the spec string fg resolves
successfully to a set whose foreground key is present with the value 0,
which is not a valid SGR foreground code (30..37 or 90..97); and the spec
string bright bright red resolves to the foreground value 151, also
outside those ranges, because each bright adds 60. -/
theorem c8_counterexample :
    (ParseColorize "fg".toList =
        Except.ok ⟨some 0, none, none, none, none, none⟩
      ∧ ¬ ((30 ≤ 0 ∧ 0 ≤ 37) ∨ (90 ≤ 0 ∧ 0 ≤ 97)))
    ∧ (ParseColorize "bright bright red".toList =
        Except.ok ⟨some 151, none, none, none, none, none⟩
      ∧ ¬ ((30 ≤ 151 ∧ 151 ≤ 37) ∨ (90 ≤ 151 ∧ 151 ≤ 97))) :=
  ⟨⟨rfl, (by decide)⟩, ⟨rfl, (by decide)⟩⟩

/-- Claim C8, amended as the code forces: on a successful resolution, a
present foreground key holds 0 (a bare channel keyword with no following
color name) or a base code 30..37 plus 60 per accumulated bright (30..37
or 90..97 when bright was applied at most once); a present background key
holds 0 or the same offset by +10; property keys hold exactly their SGR
set codes (bold 1, blink 5, underline 4, inverse 7). -/
theorem c8_attribute_values (spec : List Char) (c : Colorize)
    (h : ParseColorize spec = Except.ok c) : ColorizeValuesOK c := by
  unfold ParseColorize at h
  cases hfold : (splitWS spec).foldlM colorizeStep
      ⟨Colorize.empty, 0, Chan.fg⟩ with
  | error e =>
    rw [hfold] at h
    cases h
  | ok st2 =>
    rw [hfold] at h
    cases h
    exact (colorize_fold_preserves (splitWS spec) _ st2
      ⟨⟨fun v hv => (by cases hv), fun v hv => (by cases hv),
        fun v hv => (by cases hv), fun v hv => (by cases hv),
        fun v hv => (by cases hv), fun v hv => (by cases hv)⟩, 0, rfl⟩
      hfold).1

/-- Witness for c8_attribute_values on the spec string bright red. -/
theorem c8_attribute_witness :
    ColorizeValuesOK ⟨some 91, none, none, none, none, none⟩ :=
  c8_attribute_values ("bright red".toList) _ (by rfl)

/-! ### Event ordering (claim C3) -/

/-- Two distinct events at the same byte offset, in arrival order. -/
def evA : LinePosition := ⟨LPKind.startKind, 0, 3, Colorize.empty⟩

def evB : LinePosition := ⟨LPKind.endKind, 1, 3, Colorize.empty⟩

/-- Counterexample to claim C3 as stated: the code sorts with sort.Sort,
whose contract (unlike sort.Stable) promises only some permutation
ordered by LinePositions.Less, which compares offsets alone.  The list
that reverses two distinct equal-offset events is an admissible sort
result, yet it does not keep their arrival order, so stability is not a
property the program provides. -/
theorem c3_counterexample :
    SortResultOK [evA, evB] [evB, evA]
    ∧ [evB, evA] ≠ [evA, evB] ∧ evA.offset = evB.offset := by
  refine ⟨⟨?_, ?_⟩, (by decide), rfl⟩
  · exact List.Perm.swap evA evB []
  · exact List.sorted_cons.mpr
      ⟨fun b hb => by rw [List.mem_singleton.mp hb]; exact Nat.le_refl 3,
        List.sorted_singleton evA⟩

/-- Claim C3, amended as the code forces: the event list consumed by the
sweep is a permutation of the arrival-ordered event list sorted by byte
offset ascending; the canonical admissible sort result (insertion sort by
offset) witnesses this contract; the relative order of equal-offset
events is left unspecified by sort.Sort. -/
theorem c3_sorted_permutation (l : List LinePosition) :
    SortResultOK l (sortPositions l) :=
  ⟨List.perm_insertionSort offLE l, List.sorted_insertionSort offLE l⟩

/-! ### Buffered line delivery (claim C6) -/

theorem takeLine_append : ∀ (n : Nat) (cs : List Char),
    (takeLine n cs).1 ++ (takeLine n cs).2.1 = cs := by
  intro n
  induction n with
  | zero => intro cs; rfl
  | succ n ih =>
    intro cs
    cases cs with
    | nil => rfl
    | cons c cs =>
      simp only [takeLine]
      by_cases hc : c = '\n'
      · simp [hc]
      · simp [hc, ih]

theorem takeLine_eof_rest : ∀ (n : Nat) (cs : List Char),
    (takeLine n cs).2.2 = true → (takeLine n cs).2.1 = [] := by
  intro n
  induction n with
  | zero => intro cs h; cases h
  | succ n ih =>
    intro cs h
    cases cs with
    | nil => rfl
    | cons c cs =>
      simp only [takeLine] at h ⊢
      by_cases hc : c = '\n'
      · simp [hc] at h
      · simp only [hc, if_false, if_neg hc] at h ⊢
        exact ih cs h

theorem takeLine_len_le : ∀ (n : Nat) (cs : List Char),
    (takeLine n cs).1.length ≤ n := by
  intro n
  induction n with
  | zero => intro cs; simp [takeLine]
  | succ n ih =>
    intro cs
    cases cs with
    | nil => simp [takeLine]
    | cons c cs =>
      simp only [takeLine]
      by_cases hc : c = '\n'
      · simp [hc]
      · simp only [hc, if_neg hc, List.length_cons]
        exact Nat.succ_le_succ (ih cs)

theorem takeLine_cons_ne_nil (n : Nat) (c : Char) (cs : List Char) :
    (takeLine (n + 1) (c :: cs)).1 ≠ [] := by
  simp only [takeLine]
  by_cases hc : c = '\n' <;> simp [hc]

theorem deliveredFuel_flatten (eB : Nat) :
    ∀ (f : Nat) (input : List Char), input.length < f →
      (deliveredFuel eB f input).flatten = input
      ∧ ∀ frag ∈ deliveredFuel eB f input, frag.length ≤ max eB 16 := by
  intro f
  induction f with
  | zero => intro input h; omega
  | succ f ih =>
    intro input h
    simp only [deliveredFuel]
    by_cases heof : (takeLine (max eB 16) input).2.2
    · simp only [heof, if_true]
      have happ := takeLine_append (max eB 16) input
      rw [takeLine_eof_rest _ _ heof, List.append_nil] at happ
      refine ⟨by simp [happ], ?_⟩
      intro frag hfrag
      rw [List.mem_singleton] at hfrag
      subst hfrag
      exact takeLine_len_le _ _
    · simp only [heof, if_false, Bool.false_eq_true]
      have h16 : max eB 16 = (max eB 16 - 1) + 1 := by omega
      have hne : (takeLine (max eB 16) input).1 ≠ [] := by
        cases input with
        | nil =>
          exfalso
          apply heof
          rw [h16]
          rfl
        | cons c cs =>
          rw [h16]
          exact takeLine_cons_ne_nil _ c cs
      have happ := takeLine_append (max eB 16) input
      have hlen : (takeLine (max eB 16) input).2.1.length < f := by
        have := congrArg List.length happ
        rw [List.length_append] at this
        have hpos : 0 < (takeLine (max eB 16) input).1.length :=
          List.length_pos.mpr hne
        omega
      obtain ⟨ihf, ihl⟩ := ih _ hlen
      refine ⟨?_, ?_⟩
      · simp only [List.flatten_cons, ihf]
        exact happ
      · intro frag hfrag
        rcases List.mem_cons.mp hfrag with rfl | hmem
        · exact takeLine_len_le _ _
        · exact ihl frag hmem

def longLine : List Char := "abcdefghijklmnopqrst\n".toList

/-- Counterexample to claim C6 as stated: with buffer size 16, the
21-byte line is delivered to the render step as a 16-byte fragment, then
the 5-byte remainder, then the empty end-of-stream read — the renderer
receives a truncated mid-line prefix (nonempty, without its newline, and
not the whole line), because processFile swallows bufio.ErrBufferFull and
renders the partial buffer (cfilter.go lines 600-609). -/
theorem c6_counterexample :
    deliveredLines 16 longLine = [longLine.take 16, longLine.drop 16, []]
    ∧ longLine.take 16 ≠ [] ∧ longLine.take 16 ≠ longLine
    ∧ '\n' ∉ longLine.take 16 := by decide

/-- Claim C6, amended as the code forces: the fragments delivered to the
render step concatenate to the input exactly — no byte is lost or
reordered across buffer refills — and each fragment is at most the
effective buffer size max B 16; a line longer than the buffer reaches the
renderer split into such fragments, not accumulated into one whole
line. -/
theorem c6_fragment_delivery (B : Nat) (input : List Char) :
    (deliveredLines B input).flatten = input
    ∧ ∀ frag ∈ deliveredLines B input, frag.length ≤ max B 16 :=
  deliveredFuel_flatten B (input.length + 1) input (by omega)

/-- Witness for c6_fragment_delivery on the concrete long line. -/
theorem c6_fragment_witness :
    (deliveredLines 16 longLine).flatten = longLine
    ∧ (longLine.take 16).length ≤ max 16 16 :=
  ⟨(c6_fragment_delivery 16 longLine).1,
    (c6_fragment_delivery 16 longLine).2 (longLine.take 16) (by decide)⟩

/-! ### Dropped and passed-through lines (claim C4) -/

theorem patternEvents_matched (n : Nat) (p : Pattern) (line : List Char) :
    (patternEvents n p line).1 = (p.find line).isSome := by
  unfold patternEvents
  cases p.find line <;> rfl

theorem collectGo_matched (line : List Char) :
    ∀ (ps : List Pattern) (n : Nat),
      (collectGo line n ps).1 = ps.any (fun p => (p.find line).isSome) := by
  intro ps
  induction ps with
  | nil => intro n; rfl
  | cons p ps ih =>
    intro n
    simp only [collectGo, List.any_cons, patternEvents_matched, ih]

theorem collectGo_none (line : List Char) :
    ∀ (ps : List Pattern) (n : Nat),
      (∀ p ∈ ps, p.find line = none) → collectGo line n ps = (false, []) := by
  intro ps
  induction ps with
  | nil => intro n _; rfl
  | cons p ps ih =>
    intro n h
    have hp : p.find line = none := h p (List.mem_cons_self p ps)
    have hrest := ih (n + 1) (fun q hq => h q (List.mem_cons_of_mem p hq))
    simp only [collectGo, hrest, patternEvents]
    rw [hp]
    rfl

/-- Claim C4: with a configured pattern list, a line no pattern matches
produces no output at all (the line is dropped, and the render state is
untouched); a line some pattern matches that yields no colorized span is
written as a single verbatim chunk, byte for byte. -/
theorem c4_match_gating (pats : List Pattern) (line : List Char)
    (sortf : Nat → List LinePosition → List LinePosition)
    (propOrd : Nat → PropMap → List PropKey)
    (li ei : Nat) (st : RenderState) :
    ((∀ p ∈ pats, p.find line = none) →
      renderLine pats sortf propOrd li ei st line = ([], st, ei))
    ∧ ((∃ p ∈ pats, (p.find line).isSome) →
      (collectLine pats line).2 = [] →
      (renderLine pats sortf propOrd li ei st line).1 = [Chunk.text line]) := by
  constructor
  · intro h
    have hcol : collectLine pats line = (false, []) :=
      collectGo_none line pats 0 h
    simp [renderLine, hcol]
  · intro h hempty
    have hmatched : (collectLine pats line).1 = true := by
      unfold collectLine
      rw [collectGo_matched]
      obtain ⟨p, hp, hsome⟩ := h
      exact List.any_eq_true.mpr ⟨p, hp, hsome⟩
    simp [renderLine, hempty, hmatched]

/-- Witness for c4_match_gating: one pattern, applied to a line it does
not match and to a line it matches without producing spans. -/
theorem c4_match_witness :
    (renderLine [⟨fun l => if l = ['b'] then some [[some (0, 1)]] else none,
        []⟩] sortCanon ordCanon 0 0 (initState []) ['z']
      = ([], initState [], 0))
    ∧ (renderLine [⟨fun l => if l = ['b'] then some [[some (0, 1)]] else none,
        []⟩] sortCanon ordCanon 0 0 (initState []) ['b']).1
      = [Chunk.text ['b']] :=
  ⟨(c4_match_gating _ ['z'] sortCanon ordCanon 0 0 (initState [])).1
      (fun p hp => by
        rw [List.mem_singleton.mp hp]
        decide),
    (c4_match_gating _ ['b'] sortCanon ordCanon 0 0 (initState [])).2
      ⟨_, List.mem_singleton.mpr rfl, (by decide)⟩ (by decide)⟩

/-! ### Escape minimization (claim C2) -/

theorem escapesOf_append (a b : List Chunk) :
    escapesOf (a ++ b) = escapesOf a ++ escapesOf b := by
  unfold escapesOf
  exact List.filterMap_append a b _

theorem escapesOf_text (a : List Chunk) (t : List Char) :
    escapesOf (a ++ [Chunk.text t]) = escapesOf a := by
  rw [escapesOf_append]
  simp [escapesOf]

/-- The invariant of the sweep with respect to escape minimization: no
two consecutive written escapes are equal, and prevEscape is the last
written escape (or the initial empty string when none was written). -/
def EscInv (acc : SweepAcc) : Prop :=
  List.Chain' (fun a b => a ≠ b) (escapesOf acc.out)
  ∧ ((escapesOf acc.out).getLast?).getD [] = acc.prevEscape

theorem flushTo_escInv (line : List Char) (acc : SweepAcc) (off : Nat)
    (h : EscInv acc) : EscInv (flushTo line acc off) := by
  unfold flushTo
  split_ifs
  · obtain ⟨h1, h2⟩ := h
    constructor
    · rw [escapesOf_text]
      exact h1
    · rw [escapesOf_text]
      exact h2
  · exact h

theorem emitEscape_escInv (acc : SweepAcc) (esc : List Char)
    (h : EscInv acc) : EscInv (emitEscape acc esc) := by
  obtain ⟨h1, h2⟩ := h
  unfold emitEscape
  split_ifs with hne
  · have hesc : escapesOf [Chunk.escape esc] = [esc] := rfl
    constructor
    · simp only [escapesOf_append, hesc]
      rw [List.chain'_append]
      refine ⟨h1, List.chain'_singleton esc, ?_⟩
      intro x hx y hy
      simp only [List.head?_cons, Option.mem_def, Option.some.injEq] at hy
      subst hy
      rw [Option.mem_def] at hx
      have : ((escapesOf acc.out).getLast?).getD [] = x := by
        rw [hx]
        rfl
      rw [h2] at this
      rw [this] at hne
      exact hne
    · simp only [escapesOf_append, hesc]
      rw [List.getLast?_concat]
      rfl
  · exact ⟨h1, h2⟩

theorem sweepStep_escInv (propOrd : Nat → PropMap → List PropKey)
    (line : List Char) (acc : SweepAcc) (pos : LinePosition)
    (h : EscInv acc) : EscInv (sweepStep propOrd line acc pos) := by
  simp only [sweepStep]
  split_ifs
  · exact emitEscape_escInv _ _ (flushTo_escInv line acc pos.offset h)
  · exact flushTo_escInv line acc pos.offset h

theorem sweepFold_escInv (propOrd : Nat → PropMap → List PropKey)
    (line : List Char) :
    ∀ (positions : List LinePosition) (acc : SweepAcc),
      EscInv acc →
      EscInv (positions.foldl (sweepStep propOrd line) acc) := by
  intro positions
  induction positions with
  | nil => intro acc h; exact h
  | cons pos rest ih =>
    intro acc h
    exact ih _ (sweepStep_escInv propOrd line acc pos h)

/-- Claim C2, amended as the code forces: the minimization memory is
reset at the start of each line's render (prevEscape is declared inside
the per-line block, cfilter.go line 649), so suppression is per line
only: the escapes written while rendering any one line never repeat
consecutively, but an escape identical to the last one emitted on an
earlier line is written again. -/
theorem c2_per_line_minimization (pats : List Pattern)
    (sortf : Nat → List LinePosition → List LinePosition)
    (propOrd : Nat → PropMap → List PropKey)
    (li ei : Nat) (st : RenderState) (line : List Char) :
    List.Chain' (fun a b => a ≠ b)
      (escapesOf (renderLine pats sortf propOrd li ei st line).1) := by
  simp only [renderLine]
  split_ifs
  · rw [escapesOf_text]
    exact (sweepFold_escInv propOrd line _ ⟨st, 0, [], ei, []⟩
      ⟨List.chain'_nil, rfl⟩).1
  · exact List.chain'_nil
  · exact List.chain'_nil

/-- The abstracted match behaviour of the rule /(?P<x>a)/ (one match on
the line a with newline, the whole match and group 1 both spanning the
single byte a). -/
def findA (l : List Char) : Option (List GoMatch) :=
  if l = "a\n".toList then some [[some (0, 1), some (0, 1)]] else none

/-- The pattern of the rule /(?P<x>a)/x: with an empty colorization
specification (ParseColorize of the empty string is the empty map). -/
def patEmpty : Pattern := ⟨findA, [⟨['x'], 1, Colorize.empty⟩]⟩

/-- ESC[39;49m, the defaults-only escape. -/
def escDefault : List Char := '\x1b' :: '[' :: "39;49m".toList

/-- Counterexample to claim C2 as stated: processing the two-line stream
a a with the pattern above writes the defaults-only escape on line one,
suppresses its repetition inside line one, and then writes the very same
escape again as the first escape of line two even though it is identical
to the last escape emitted on the stream with none in between — because
prevEscape is re-initialized for every line, the memory does not survive
across lines. -/
theorem c2_counterexample :
    SortfOK sortCanon ∧ PropOrdOK ordCanon
    ∧ escapesOf (processChunks [patEmpty] 4096 sortCanon ordCanon
        "a\na\n".toList) = [escDefault, escDefault]
    ∧ escDefault ≠ [] := by
  refine ⟨fun i l => ⟨List.perm_insertionSort offLE l,
    List.sorted_insertionSort offLE l⟩, fun i m => List.Perm.refl _,
    (by decide), (by decide)⟩

/-! ### Round trip (claim C5) -/

theorem sortPositions_sorts (l : List LinePosition) :
    SortResultOK l (sortPositions l) :=
  ⟨List.perm_insertionSort offLE l, List.sorted_insertionSort offLE l⟩

theorem sortCanon_ok : SortfOK sortCanon :=
  fun _ l => sortPositions_sorts l

theorem ordCanon_ok : PropOrdOK ordCanon :=
  fun _ _ => List.Perm.refl _

theorem digitChar_isDigit : ∀ n : Nat, n < 10 →
    (Nat.digitChar n).isDigit = true := by decide

theorem natDecimalAux_digits :
    ∀ (f n : Nat), ∀ ch ∈ natDecimalAux f n, ch.isDigit = true := by
  intro f
  induction f with
  | zero => intro n ch h; cases h
  | succ f ih =>
    intro n ch h
    simp only [natDecimalAux] at h
    split_ifs at h with h10
    · rw [List.mem_singleton] at h
      subst h
      exact digitChar_isDigit n h10
    · rcases List.mem_append.mp h with h1 | h1
      · exact ih _ ch h1
      · rw [List.mem_singleton] at h1
        subst h1
        exact digitChar_isDigit _ (Nat.mod_lt n (by omega))

theorem natDecimal_digits (n : Nat) :
    ∀ ch ∈ natDecimal n, ch.isDigit = true :=
  natDecimalAux_digits (n + 1) n

/-- The shape of every emitted escape: ESC, an opening bracket, a body of
decimal digits and semicolons, and the final m. -/
def EscShape (e : List Char) : Prop :=
  ∃ body, e = '\x1b' :: '[' :: (body ++ ['m'])
    ∧ ∀ ch ∈ body, ch.isDigit = true ∨ ch = ';'

theorem propsString_chars (ord : List PropKey) (m : PropMap) :
    ∀ ch ∈ propsString ord m, ch.isDigit = true ∨ ch = ';' := by
  intro ch h
  unfold propsString at h
  rw [List.mem_flatMap] at h
  obtain ⟨k, _, hch⟩ := h
  rcases List.mem_append.mp hch with h1 | h1
  · exact Or.inl (natDecimal_digits _ ch h1)
  · rw [List.mem_singleton] at h1
    exact Or.inr h1

theorem buildEscape_shape (ord : List PropKey) (st : RenderState) :
    EscShape (buildEscape ord st) := by
  refine ⟨propsString ord st.props
    ++ natDecimal (resolveColors st.colorFG st.colorBG).1 ++ [';']
    ++ natDecimal (resolveColors st.colorFG st.colorBG).2, ?_, ?_⟩
  · unfold buildEscape AnsiStart
    simp [List.append_assoc]
  · intro ch h
    simp only [List.append_assoc, List.mem_append, List.mem_singleton] at h
    rcases h with h | h | h | h
    · exact propsString_chars ord st.props ch h
    · exact Or.inl (natDecimal_digits _ ch h)
    · exact Or.inr h
    · exact Or.inl (natDecimal_digits _ ch h)

theorem textOf_append (a b : List Chunk) :
    textOf (a ++ b) = textOf a ++ textOf b := by
  unfold textOf
  rw [List.filterMap_append, List.flatten_append]

theorem textOf_escape (a : List Chunk) (esc : List Char) :
    textOf (a ++ [Chunk.escape esc]) = textOf a := by
  rw [textOf_append]
  simp [textOf]

theorem textOf_textChunk (a : List Chunk) (t : List Char) :
    textOf (a ++ [Chunk.text t]) = textOf a ++ t := by
  rw [textOf_append]
  simp [textOf]

/-- The invariant of the sweep with respect to the round trip: the text
written so far is exactly the prefix of the line up to the cursor, the
cursor never passes the end of the line, and every written escape has the
emitted-escape shape. -/
def SweepTextInv (line : List Char) (acc : SweepAcc) : Prop :=
  textOf acc.out = line.take acc.lineOffset
  ∧ acc.lineOffset ≤ line.length
  ∧ ∀ e ∈ escapesOf acc.out, EscShape e

theorem flushTo_textInv (line : List Char) (acc : SweepAcc) (off : Nat)
    (hoff : off ≤ line.length) (h : SweepTextInv line acc) :
    SweepTextInv line (flushTo line acc off) := by
  obtain ⟨h1, h2, h3⟩ := h
  unfold flushTo
  split_ifs with hlt
  · refine ⟨?_, hoff, ?_⟩
    · rw [textOf_textChunk, h1]
      unfold slice
      have hmin : line.take acc.lineOffset = (line.take off).take acc.lineOffset := by
        rw [List.take_take]
        rw [Nat.min_eq_left (Nat.le_of_lt hlt)]
      rw [hmin]
      exact List.take_append_drop _ _
    · intro e he
      rw [escapesOf_text] at he
      exact h3 e he
  · exact ⟨h1, h2, h3⟩

theorem sweepStep_textInv (propOrd : Nat → PropMap → List PropKey)
    (line : List Char) (acc : SweepAcc) (pos : LinePosition)
    (hoff : pos.offset ≤ line.length) (h : SweepTextInv line acc) :
    SweepTextInv line (sweepStep propOrd line acc pos) := by
  have hf := flushTo_textInv line acc pos.offset hoff h
  simp only [sweepStep]
  split_ifs
  · obtain ⟨h1, h2, h3⟩ := hf
    unfold emitEscape
    split_ifs
    · refine ⟨?_, h2, ?_⟩
      · rw [textOf_escape]
        exact h1
      · intro e he
        rw [escapesOf_append] at he
        rcases List.mem_append.mp he with he | he
        · exact h3 e he
        · rw [show escapesOf [Chunk.escape (buildEscape _ _)] =
              [buildEscape _ _] from rfl, List.mem_singleton] at he
          subst he
          exact buildEscape_shape _ _
    · exact ⟨h1, h2, h3⟩
  · exact hf

theorem sweepFold_textInv (propOrd : Nat → PropMap → List PropKey)
    (line : List Char) :
    ∀ (positions : List LinePosition) (acc : SweepAcc),
      (∀ pos ∈ positions, pos.offset ≤ line.length) →
      SweepTextInv line acc →
      SweepTextInv line (positions.foldl (sweepStep propOrd line) acc) := by
  intro positions
  induction positions with
  | nil => intro acc _ h; exact h
  | cons pos rest ih =>
    intro acc hb h
    exact ih _ (fun q hq => hb q (List.mem_cons_of_mem pos hq))
      (sweepStep_textInv propOrd line acc pos
        (hb pos (List.mem_cons_self pos rest)) h)

/-- The postconditions Go regexp guarantees for FindAllSubmatchIndex on a
line: every participating capture has start at most end and end within
the line. -/
def MatcherBounds (pats : List Pattern) (line : List Char) : Prop :=
  ∀ p ∈ pats, ∀ res, p.find line = some res → ∀ m ∈ res, ∀ g s e,
    getCapture m g = some (s, e) → s ≤ e ∧ e ≤ line.length

theorem captureEvents_mem (n : Nat) (c : Colorize)
    (cap : Option (Nat × Nat)) (pos : LinePosition)
    (h : pos ∈ captureEvents n c cap) :
    ∃ s e, cap = some (s, e) ∧ (pos.offset = s ∨ pos.offset = e)
      ∧ pos.colorize = c := by
  cases cap with
  | none => cases h
  | some se =>
    obtain ⟨s, e⟩ := se
    simp only [captureEvents] at h
    split_ifs at h with hse
    · cases h
    · rcases List.mem_cons.mp h with rfl | h
      · exact ⟨s, e, rfl, Or.inl rfl, rfl⟩
      · rw [List.mem_singleton] at h
        subst h
        exact ⟨s, e, rfl, Or.inr rfl, rfl⟩

theorem patternEvents_mem (n : Nat) (p : Pattern) (line : List Char)
    (pos : LinePosition) (h : pos ∈ (patternEvents n p line).2) :
    ∃ res, p.find line = some res ∧ ∃ g ∈ p.groups, ∃ m ∈ res, ∃ s e,
      getCapture m g.number = some (s, e)
      ∧ (pos.offset = s ∨ pos.offset = e) ∧ pos.colorize = g.colorize := by
  unfold patternEvents at h
  revert h
  cases hf : p.find line with
  | none => intro h; cases h
  | some res =>
    intro h
    simp only at h
    rw [List.mem_flatMap] at h
    obtain ⟨g, hg, hge⟩ := h
    unfold groupEvents at hge
    rw [List.mem_flatMap] at hge
    obtain ⟨m, hm, hce⟩ := hge
    obtain ⟨s, e, hcap, hoff, hcol⟩ := captureEvents_mem n g.colorize _ pos hce
    exact ⟨res, rfl, g, hg, m, hm, s, e, hcap, hoff, hcol⟩

theorem collectGo_mem (line : List Char) :
    ∀ (ps : List Pattern) (n : Nat) (pos : LinePosition),
      pos ∈ (collectGo line n ps).2 →
      ∃ p ∈ ps, ∃ i, pos ∈ (patternEvents i p line).2 := by
  intro ps
  induction ps with
  | nil => intro n pos h; cases h
  | cons p ps ih =>
    intro n pos h
    simp only [collectGo] at h
    rcases List.mem_append.mp h with h1 | h1
    · exact ⟨p, List.mem_cons_self p ps, n, h1⟩
    · obtain ⟨q, hq, i, hqe⟩ := ih (n + 1) pos h1
      exact ⟨q, List.mem_cons_of_mem p hq, i, hqe⟩

theorem collect_offset_le (pats : List Pattern) (line : List Char)
    (hb : MatcherBounds pats line) :
    ∀ pos ∈ (collectLine pats line).2, pos.offset ≤ line.length := by
  intro pos h
  obtain ⟨p, hp, i, hpe⟩ := collectGo_mem line pats 0 pos h
  obtain ⟨res, hres, g, _, m, hm, s, e, hcap, hoff, _⟩ :=
    patternEvents_mem i p line pos hpe
  obtain ⟨hse, hel⟩ := hb p hp res hres m hm g.number s e hcap
  rcases hoff with h1 | h1 <;> omega

/-- Claim C5: on a line that produces colorized output, the text chunks
written (the output with every emitted escape removed) reproduce the
input line byte for byte, and every emitted escape chunk is of the form
ESC [ digits-and-semicolons m. -/
theorem c5_round_trip (pats : List Pattern) (line : List Char)
    (sortf : Nat → List LinePosition → List LinePosition)
    (propOrd : Nat → PropMap → List PropKey)
    (li ei : Nat) (st : RenderState)
    (hsort : SortfOK sortf) (hb : MatcherBounds pats line)
    (hne : (collectLine pats line).2 ≠ []) :
    textOf (renderLine pats sortf propOrd li ei st line).1 = line
    ∧ ∀ e ∈ escapesOf (renderLine pats sortf propOrd li ei st line).1,
      EscShape e := by
  simp only [renderLine]
  rw [if_pos hne]
  have hmem : ∀ pos ∈ sortf li (collectLine pats line).2,
      pos.offset ≤ line.length := by
    intro pos hp
    exact collect_offset_le pats line hb pos
      (((hsort li (collectLine pats line).2).1.mem_iff).mp hp)
  obtain ⟨ht, _, hs⟩ := sweepFold_textInv propOrd line
    (sortf li (collectLine pats line).2) ⟨st, 0, [], ei, []⟩ hmem
    ⟨rfl, Nat.zero_le _, fun e he => absurd he (by simp [escapesOf])⟩
  constructor
  · rw [textOf_textChunk, ht]
    unfold slice
    rw [List.take_length]
    exact List.take_append_drop _ line
  · intro e he
    rw [escapesOf_text] at he
    exact hs e he

/-- The colorize map of the spec fg red bold. -/
def colRedBold : Colorize := ⟨some 31, none, some 1, none, none, none⟩

/-- The abstracted matches of /(?P<x>ERROR)/ on the scenario line. -/
def findERROR (l : List Char) : Option (List GoMatch) :=
  if l = "an ERROR occurred\n".toList then
    some [[some (3, 8), some (3, 8)]]
  else none

def patERROR : Pattern := ⟨findERROR, [⟨['x'], 1, colRedBold⟩]⟩

/-- Witness for c5_round_trip on the scenario of the spec. -/
theorem c5_round_trip_witness :
    textOf (renderLine [patERROR] sortCanon ordCanon 0 0
      (initState [patERROR]) ("an ERROR occurred\n".toList)).1
      = "an ERROR occurred\n".toList
    ∧ ∀ e ∈ escapesOf (renderLine [patERROR] sortCanon ordCanon 0 0
        (initState [patERROR]) ("an ERROR occurred\n".toList)).1,
      EscShape e :=
  c5_round_trip [patERROR] ("an ERROR occurred\n".toList) sortCanon
    ordCanon 0 0 (initState [patERROR]) sortCanon_ok
    (by
      intro p hp res hres m hm g s e hcap
      rw [List.mem_singleton.mp hp] at hres
      simp only [patERROR, findERROR, if_true] at hres
      injection hres with hres
      subst hres
      rw [List.mem_singleton] at hm
      subst hm
      rcases g with _ | _ | g
      · unfold getCapture at hcap
        simp at hcap
        obtain ⟨rfl, rfl⟩ := hcap
        decide
      · unfold getCapture at hcap
        simp at hcap
        obtain ⟨rfl, rfl⟩ := hcap
        decide
      · unfold getCapture at hcap
        simp at hcap)
    (by decide)

/-! ### Determinism of the rendering (claim C10)

The escape built at an event interleaves one code per present property
key in Go map iteration order, which is randomized between runs; the
output bytes are therefore a function of patterns, input, and the
iteration orders (and sort results), not of patterns and input alone. -/

/-- A colorize map whose property keys are confined to the key k0. -/
def PropsOnly (k0 : PropKey) (c : Colorize) : Prop :=
  ∀ k, (c.prop k).isSome = true → k = k0

/-- A property map whose present keys are confined to the key k0. -/
def MapOnly (k0 : PropKey) (m : PropMap) : Prop :=
  ∀ k, (m.get k).isSome = true → k = k0

theorem set_get_isSome (m : PropMap) (k k2 : PropKey) (v : Int)
    (h : ((m.set k v).get k2).isSome = true) :
    k2 = k ∨ (m.get k2).isSome = true := by
  cases k <;> cases k2 <;>
    simp only [PropMap.set, PropMap.get] at h ⊢ <;>
    first
      | exact Or.inl trivial
      | exact Or.inl rfl
      | exact Or.inr h

theorem foldSet_only (k0 : PropKey) (c : Colorize) (hc : PropsOnly k0 c)
    (g : PropMap → PropKey → Int) :
    ∀ (ks : List PropKey) (m : PropMap), MapOnly k0 m →
      MapOnly k0 (ks.foldl
        (fun m k => if (c.prop k).isSome then m.set k (g m k) else m) m) := by
  intro ks
  induction ks with
  | nil => intro m hm; exact hm
  | cons k ks ih =>
    intro m hm
    simp only [List.foldl_cons]
    apply ih
    by_cases hck : (c.prop k).isSome = true
    · rw [if_pos hck]
      intro k2 hk2
      rcases set_get_isSome m k k2 _ hk2 with rfl | h2
      · exact hc k2 hck
      · exact hm k2 h2
    · rw [if_neg hck]
      exact hm

theorem incProps_only (k0 : PropKey) (c : Colorize) (m : PropMap)
    (hc : PropsOnly k0 c) (hm : MapOnly k0 m) :
    MapOnly k0 (incProps c m) :=
  foldSet_only k0 c hc (fun m k => (m.get k).getD 0 + 1) allProps m hm

theorem decProps_only (k0 : PropKey) (c : Colorize) (m : PropMap)
    (hc : PropsOnly k0 c) (hm : MapOnly k0 m) :
    MapOnly k0 (decProps c m) :=
  foldSet_only k0 c hc (fun m k => (m.get k).getD 0 - 1) allProps m hm

theorem applyEvent_mapOnly (k0 : PropKey) (st : RenderState)
    (pos : LinePosition) (hc : PropsOnly k0 pos.colorize)
    (hm : MapOnly k0 st.props) :
    MapOnly k0 (applyEvent st pos).props := by
  unfold applyEvent
  cases pos.kind
  · exact incProps_only k0 pos.colorize st.props hc hm
  · exact decProps_only k0 pos.colorize st.props hc hm

theorem presentKeys_sub (k0 : PropKey) (m : PropMap) (hm : MapOnly k0 m) :
    m.presentKeys = [] ∨ m.presentKeys = [k0] := by
  rcases m with ⟨b, l, u, i⟩
  cases k0 with
  | bold =>
    have hl : l = none := by
      cases l with
      | none => rfl
      | some x => exact absurd (hm PropKey.blink rfl) (by decide)
    have hu : u = none := by
      cases u with
      | none => rfl
      | some x => exact absurd (hm PropKey.underline rfl) (by decide)
    have hi : i = none := by
      cases i with
      | none => rfl
      | some x => exact absurd (hm PropKey.inverse rfl) (by decide)
    subst hl; subst hu; subst hi
    cases b with
    | none => exact Or.inl rfl
    | some v => exact Or.inr rfl
  | blink =>
    have hb : b = none := by
      cases b with
      | none => rfl
      | some x => exact absurd (hm PropKey.bold rfl) (by decide)
    have hu : u = none := by
      cases u with
      | none => rfl
      | some x => exact absurd (hm PropKey.underline rfl) (by decide)
    have hi : i = none := by
      cases i with
      | none => rfl
      | some x => exact absurd (hm PropKey.inverse rfl) (by decide)
    subst hb; subst hu; subst hi
    cases l with
    | none => exact Or.inl rfl
    | some v => exact Or.inr rfl
  | underline =>
    have hb : b = none := by
      cases b with
      | none => rfl
      | some x => exact absurd (hm PropKey.bold rfl) (by decide)
    have hl : l = none := by
      cases l with
      | none => rfl
      | some x => exact absurd (hm PropKey.blink rfl) (by decide)
    have hi : i = none := by
      cases i with
      | none => rfl
      | some x => exact absurd (hm PropKey.inverse rfl) (by decide)
    subst hb; subst hl; subst hi
    cases u with
    | none => exact Or.inl rfl
    | some v => exact Or.inr rfl
  | inverse =>
    have hb : b = none := by
      cases b with
      | none => rfl
      | some x => exact absurd (hm PropKey.bold rfl) (by decide)
    have hl : l = none := by
      cases l with
      | none => rfl
      | some x => exact absurd (hm PropKey.blink rfl) (by decide)
    have hu : u = none := by
      cases u with
      | none => rfl
      | some x => exact absurd (hm PropKey.underline rfl) (by decide)
    subst hb; subst hl; subst hu
    cases i with
    | none => exact Or.inl rfl
    | some v => exact Or.inr rfl

theorem ord_eq (ordA ordB : Nat → PropMap → List PropKey)
    (hA : PropOrdOK ordA) (hB : PropOrdOK ordB) (k0 : PropKey)
    (i : Nat) (m : PropMap) (hm : MapOnly k0 m) :
    ordA i m = ordB i m := by
  rcases presentKeys_sub k0 m hm with h | h
  · have ha := hA i m
    have hb := hB i m
    rw [h] at ha hb
    rw [ha.eq_nil, hb.eq_nil]
  · have ha := hA i m
    have hb := hB i m
    rw [h] at ha hb
    rw [List.perm_singleton.mp ha, List.perm_singleton.mp hb]

theorem flushTo_st (line : List Char) (acc : SweepAcc) (off : Nat) :
    (flushTo line acc off).st = acc.st
    ∧ (flushTo line acc off).evIdx = acc.evIdx := by
  unfold flushTo
  split_ifs <;> exact ⟨rfl, rfl⟩

theorem emitEscape_st (acc : SweepAcc) (esc : List Char) :
    (emitEscape acc esc).st = acc.st := by
  unfold emitEscape
  split_ifs <;> rfl

theorem sweepStep_congr (line : List Char)
    (ordA ordB : Nat → PropMap → List PropKey)
    (hA : PropOrdOK ordA) (hB : PropOrdOK ordB) (k0 : PropKey)
    (acc : SweepAcc) (pos : LinePosition)
    (hc : PropsOnly k0 pos.colorize) (hm : MapOnly k0 acc.st.props) :
    sweepStep ordA line acc pos = sweepStep ordB line acc pos
    ∧ MapOnly k0 (sweepStep ordA line acc pos).st.props := by
  simp only [sweepStep]
  split_ifs with hoff
  · have hm2 : MapOnly k0
        (applyEvent (flushTo line acc pos.offset).st pos).props := by
      rw [(flushTo_st line acc pos.offset).1]
      exact applyEvent_mapOnly k0 acc.st pos hc hm
    rw [ord_eq ordA ordB hA hB k0 _ _ hm2]
    refine ⟨rfl, ?_⟩
    rw [emitEscape_st]
    exact hm2
  · refine ⟨rfl, ?_⟩
    rw [(flushTo_st line acc pos.offset).1]
    exact hm

theorem sweepFold_congr (line : List Char)
    (ordA ordB : Nat → PropMap → List PropKey)
    (hA : PropOrdOK ordA) (hB : PropOrdOK ordB) (k0 : PropKey) :
    ∀ (positions : List LinePosition) (acc : SweepAcc),
      (∀ pos ∈ positions, PropsOnly k0 pos.colorize) →
      MapOnly k0 acc.st.props →
      positions.foldl (sweepStep ordA line) acc
        = positions.foldl (sweepStep ordB line) acc
      ∧ MapOnly k0
        ((positions.foldl (sweepStep ordA line) acc).st.props) := by
  intro positions
  induction positions with
  | nil => intro acc _ hm; exact ⟨rfl, hm⟩
  | cons pos rest ih =>
    intro acc hp hm
    obtain ⟨hstep, hm2⟩ := sweepStep_congr line ordA ordB hA hB k0 acc pos
      (hp pos (List.mem_cons_self pos rest)) hm
    simp only [List.foldl_cons]
    rw [← hstep]
    exact ih (sweepStep ordA line acc pos)
      (fun q hq => hp q (List.mem_cons_of_mem pos hq)) hm2

theorem renderLine_congr (pats : List Pattern)
    (sortf : Nat → List LinePosition → List LinePosition)
    (ordA ordB : Nat → PropMap → List PropKey)
    (hA : PropOrdOK ordA) (hB : PropOrdOK ordB) (k0 : PropKey)
    (hs : SortfOK sortf)
    (hk : ∀ p ∈ pats, ∀ g ∈ p.groups, PropsOnly k0 g.colorize)
    (li ei : Nat) (st : RenderState) (line : List Char)
    (hm : MapOnly k0 st.props) :
    renderLine pats sortf ordA li ei st line
      = renderLine pats sortf ordB li ei st line
    ∧ MapOnly k0 (renderLine pats sortf ordA li ei st line).2.1.props := by
  simp only [renderLine]
  split_ifs with hne hmatch
  · have hpos : ∀ pos ∈ sortf li (collectLine pats line).2,
        PropsOnly k0 pos.colorize := by
      intro pos hp
      have harr : pos ∈ (collectLine pats line).2 :=
        (((hs li (collectLine pats line).2).1).mem_iff).mp hp
      obtain ⟨p, hp2, i, hpe⟩ := collectGo_mem line pats 0 pos harr
      obtain ⟨res, _, g, hg, m, _, s, e, _, _, hcol⟩ :=
        patternEvents_mem i p line pos hpe
      rw [hcol]
      exact hk p hp2 g hg
    obtain ⟨heq, hm2⟩ := sweepFold_congr line ordA ordB hA hB k0
      (sortf li (collectLine pats line).2) ⟨st, 0, [], ei, []⟩ hpos hm
    rw [heq]
    rw [heq] at hm2
    exact ⟨rfl, hm2⟩
  · exact ⟨rfl, hm⟩
  · exact ⟨rfl, hm⟩

theorem streamFold_congr (pats : List Pattern)
    (sortf : Nat → List LinePosition → List LinePosition)
    (ordA ordB : Nat → PropMap → List PropKey)
    (hA : PropOrdOK ordA) (hB : PropOrdOK ordB) (k0 : PropKey)
    (hs : SortfOK sortf)
    (hk : ∀ p ∈ pats, ∀ g ∈ p.groups, PropsOnly k0 g.colorize) :
    ∀ (ls : List (List Char)) (acc : StreamAcc),
      MapOnly k0 acc.st.props →
      ls.foldl (streamStep pats sortf ordA) acc
        = ls.foldl (streamStep pats sortf ordB) acc := by
  intro ls
  induction ls with
  | nil => intro acc _; rfl
  | cons l ls ih =>
    intro acc hm
    obtain ⟨heq, hm2⟩ := renderLine_congr pats sortf ordA ordB hA hB k0
      hs hk acc.lineIdx acc.evIdx acc.st l hm
    simp only [List.foldl_cons]
    have hstep : streamStep pats sortf ordA acc l
        = streamStep pats sortf ordB acc l := by
      unfold streamStep
      rw [heq]
    rw [← hstep]
    exact ih (streamStep pats sortf ordA acc l) (by
      show MapOnly k0
        (renderLine pats sortf ordA acc.lineIdx acc.evIdx acc.st l).2.1.props
      exact hm2)

/-- The reversed iteration-order choice: as admissible for a Go map range
as the canonical one. -/
def ordRev : Nat → PropMap → List PropKey :=
  fun _ m => m.presentKeys.reverse

theorem ordRev_ok : PropOrdOK ordRev :=
  fun _ m => List.reverse_perm m.presentKeys

/-- The colorize map of the spec bold underline. -/
def colBoldUnderline : Colorize := ⟨none, none, some 1, none, some 4, none⟩

/-- A pattern whose single group turns on two properties at once. -/
def patBU : Pattern := ⟨findA, [⟨['x'], 1, colBoldUnderline⟩]⟩

/-- Counterexample to claim C10 as stated: with a group setting two
properties (bold and underline), two runs over the same patterns and the
same input that differ only in the map iteration order — both orders
admissible for a Go map range — write different bytes (the property-code
segments 1;4; versus 4;1; inside each escape), so the output, including
the order of the property-code segments, is not a function of the
patterns and the input alone. -/
theorem c10_counterexample :
    PropOrdOK ordCanon ∧ PropOrdOK ordRev
    ∧ processFile [patBU] 4096 sortCanon ordCanon ("a\n".toList)
      ≠ processFile [patBU] 4096 sortCanon ordRev ("a\n".toList) :=
  ⟨ordCanon_ok, ordRev_ok, (by decide)⟩

/-- Claim C10, amended as the code forces: the output is a function of
the patterns, the input, the sort results and the map iteration orders;
and whenever the property keys used by the patterns are confined to a
single key (in particular when at most one property is ever in play, so
every properties segment has at most one entry), the iteration order
cannot matter and two runs differing only in that choice write the same
bytes. -/
theorem c10_deterministic_single_prop (pats : List Pattern) (B : Nat)
    (sortf : Nat → List LinePosition → List LinePosition)
    (ordA ordB : Nat → PropMap → List PropKey)
    (input : List Char) (k0 : PropKey)
    (hs : SortfOK sortf) (hA : PropOrdOK ordA) (hB : PropOrdOK ordB)
    (hk : ∀ p ∈ pats, ∀ g ∈ p.groups, PropsOnly k0 g.colorize) :
    processFile pats B sortf ordA input
      = processFile pats B sortf ordB input := by
  unfold processFile processChunks
  rw [streamFold_congr pats sortf ordA ordB hA hB k0 hs hk
    (deliveredLines B input) ⟨initState pats, 0, 0, []⟩
    (by
      intro k hk2
      cases k <;> simp [initState, PropMap.empty, PropMap.get] at hk2)]

/-- Witness for c10_deterministic_single_prop: a pattern with no
property keys at all gives identical output under the canonical and the
reversed iteration orders. -/
theorem c10_deterministic_witness :
    processFile [patEmpty] 4096 sortCanon ordCanon ("a\na\n".toList)
      = processFile [patEmpty] 4096 sortCanon ordRev ("a\na\n".toList) :=
  c10_deterministic_single_prop [patEmpty] 4096 sortCanon ordCanon ordRev
    ("a\na\n".toList) PropKey.bold sortCanon_ok ordCanon_ok ordRev_ok
    (by
      intro p hp g hg k hk2
      rw [List.mem_singleton.mp hp] at hg
      rw [List.mem_singleton.mp hg] at hk2
      cases k <;>
        simp [patEmpty, Colorize.empty, Colorize.prop] at hk2)

end CFilter
